import Mathlib

/-!
Verification of the Hipparchus migration scripts
(`hipparchus-migration/scripts/migrate.py` and
`migrating-from-Apache-Commons-Math/migrate.py`).

The engine operates on a file represented as an ordered sequence of text
lines; we embed lines as `List Char`.  All definitions below are direct
translations of the Python source:

* `matchImport` / `matchStatic` embed `re.match` with the patterns
  `^\s*import\s+([a-zA-Z0-9\.\*]+);` and
  `^\s*import\s+static\s+([a-zA-Z0-9\.\*]+);`.  Both patterns are
  backtracking-free (the character classes of `\s`, the identifier class
  and `;` are pairwise disjoint), so they are embedded as deterministic
  maximal-munch scanners returning group 1.
* `hasMatch` embeds `re.search` for the boundary-safe class-name pattern
  `(^|[^A-Za-z0-9_])<name>([^A-Za-z0-9_]|$)` (the class name is taken
  literally, as it is in the intended rule files, which hold plain
  identifiers free of regex metacharacters).
* `substGoF`/`substCl` embed `re.sub` with the same pattern and the
  replacement `\1<new>\2`: matches are found left to right, are
  non-overlapping, and consume their boundary characters.
* `replaceAllPatF`/`replaceAllPat` embed `re.sub(prefix, to, line)` where
  the prefix is spliced into the pattern verbatim, so a `.` in the prefix
  matches any single character except a newline.  Other characters are
  taken literally (the configured prefixes contain only letters, digits
  and dots).  `replaceAllLitF`/`replaceAllLit` is the literal
  (`str.replace`) variant, which is also the behaviour the specification
  ascribes to prefix rewriting ("textually replaced").
* `pySlice`, `rfindDot`, `pySplit` embed Python slicing, `str.rfind('.')`
  and `str.split()`.
* `scanLine`/`scan` embed pass 1 of `processLines`, `pass2go` embeds
  pass 2, `addImports` and `processLines` are the functions of the same
  names.  The two dictionaries built by `parseClassSubstitutionRules`
  (`classnames` and `class_substitutions`) are keyed by the same class
  names, so they are embedded together as a list of `Rule` records; the
  per-file dictionaries become lists kept in insertion order.
* `parseRules` embeds `parseClassSubstitutionRules` of the
  hipparchus-migration script (a line with fewer than two whitespace
  separated tokens raises an uncaught `IndexError`, embedded as `none`);
  `parseTwoIdents`/`parseRulesACM` embed the rule parsing of the
  commons-math variant, whose anchored two-identifier regex skips lines
  that do not match.
-/

/-! ### Character classes -/

/-- Python `\s` on ASCII input: space, tab, newline, carriage return,
vertical tab, form feed. -/
def isPySpace (c : Char) : Bool :=
  c == ' ' || c == '\t' || c == '\n' || c == '\r' || c == '\x0b' || c == '\x0c'

/-- The character class `[a-zA-Z0-9.*]` used by the import patterns. -/
def isCChar (c : Char) : Bool :=
  (decide ('a' ≤ c) && decide (c ≤ 'z')) ||
  (decide ('A' ≤ c) && decide (c ≤ 'Z')) ||
  (decide ('0' ≤ c) && decide (c ≤ '9')) ||
  c == '.' || c == '*'

/-- The identifier class `[A-Za-z0-9_]` of the boundary-safe pattern. -/
def isIdChar (c : Char) : Bool :=
  (decide ('a' ≤ c) && decide (c ≤ 'z')) ||
  (decide ('A' ≤ c) && decide (c ≤ 'Z')) ||
  (decide ('0' ≤ c) && decide (c ≤ '9')) ||
  c == '_'

/-- The class `[A-Za-z_]` (first character of an identifier in the
commons-math variant's rule pattern). -/
def isAlphaUnd (c : Char) : Bool :=
  (decide ('a' ≤ c) && decide (c ≤ 'z')) ||
  (decide ('A' ≤ c) && decide (c ≤ 'Z')) ||
  c == '_'

/-- Characters of a string literal, used to write concrete lines. -/
def strL (s : String) : List Char := s.data

/-! ### Substring primitives (Python `in`, `str.startswith`) -/

/-- `startsWith needle hay`: `needle` is a prefix of `hay`. -/
def startsWith : List Char → List Char → Bool
  | [], _ => true
  | _ :: _, [] => false
  | a :: as, b :: bs => a == b && startsWith as bs

/-- Python's substring containment `needle in hay`. -/
def containsSub (needle : List Char) : List Char → Bool
  | [] => startsWith needle []
  | b :: bs => startsWith needle (b :: bs) || containsSub needle bs

/-! ### Python slicing, `rfind('.')`, `split()` -/

/-- Normalise a Python slice index against length `n`. -/
def normIdx (n : Nat) (i : Int) : Nat :=
  if i < 0 then ((n : Int) + i).toNat else min i.toNat n

/-- Python `s[a:b]` with full negative-index and clamping semantics. -/
def pySlice (s : List Char) (a b : Int) : List Char :=
  (s.drop (normIdx s.length a)).take (normIdx s.length b - normIdx s.length a)

/-- Python `s.rfind('.')`: index of the last dot, `-1` if there is none. -/
def rfindDot (s : List Char) : Int :=
  (s.foldl (fun (st : Int × Int) ch => (st.1 + 1, if ch == '.' then st.1 else st.2))
    (0, -1)).2

/-- Step of `pySplit`, building (current word, completed words). -/
def pySplitStep (ch : Char) (acc : List Char × List (List Char)) :
    List Char × List (List Char) :=
  if isPySpace ch then
    ([], if acc.1.isEmpty then acc.2 else acc.1 :: acc.2)
  else (ch :: acc.1, acc.2)

/-- Python `s.split()`: split on whitespace runs, no empty tokens. -/
def pySplit (s : List Char) : List (List Char) :=
  let a := s.foldr pySplitStep ([], [])
  if a.1.isEmpty then a.2 else a.1 :: a.2

/-- Python `s[s.rfind('.')+1:]`: the last dot-separated segment of `s`
(all of `s` if it has no dot). -/
def lastSeg (s : List Char) : List Char :=
  (s.reverse.takeWhile (fun c => c != '.')).reverse

/-! ### The import-statement patterns -/

def impKw : List Char := ['i', 'm', 'p', 'o', 'r', 't']

def statKw : List Char := ['s', 't', 'a', 't', 'i', 'c']

/-- `re.match(r'^\s*import\s+([a-zA-Z0-9\.\*]+);', line)`, returning
group 1.  The pattern is deterministic: maximal whitespace run, literal
`import`, a nonempty maximal whitespace run, a nonempty maximal run of
identifier characters, then a literal `;`. -/
def matchImport (line : List Char) : Option (List Char) :=
  let t1 := line.dropWhile isPySpace
  if startsWith impKw t1 then
    let t2 := t1.drop impKw.length
    if (t2.takeWhile isPySpace).isEmpty then none
    else
      let t3 := t2.dropWhile isPySpace
      let g := t3.takeWhile isCChar
      if g.isEmpty then none
      else
        match t3.drop g.length with
        | ';' :: _ => some g
        | _ => none
  else none

/-- `re.match(r'^\s*import\s+static\s+([a-zA-Z0-9\.\*]+);', line)`,
returning group 1. -/
def matchStatic (line : List Char) : Option (List Char) :=
  let t1 := line.dropWhile isPySpace
  if startsWith impKw t1 then
    let t2 := t1.drop impKw.length
    if (t2.takeWhile isPySpace).isEmpty then none
    else
      let t3 := t2.dropWhile isPySpace
      if startsWith statKw t3 then
        let t4 := t3.drop statKw.length
        if (t4.takeWhile isPySpace).isEmpty then none
        else
          let t5 := t4.dropWhile isPySpace
          let g := t5.takeWhile isCChar
          if g.isEmpty then none
          else
            match t5.drop g.length with
            | ';' :: _ => some g
            | _ => none
      else none
  else none

/-! ### The boundary-safe class-name pattern -/

/-- After the class name, the pattern needs `([^A-Za-z0-9_]|$)`: either
the end of the line or a non-identifier character. -/
def rightOkB (c t : List Char) : Bool :=
  match t.drop c.length with
  | [] => true
  | b :: _ => !isIdChar b

/-- `re.search(r'(^|[^A-Za-z0-9_])' + c + r'([^A-Za-z0-9_]|$)', t)`:
is there a boundary-safe occurrence of `c` in `t`?  `allow` records
whether the current position is the start of the line (where the `^`
alternative of the first group applies). -/
def hasMatch (c : List Char) : Bool → List Char → Bool
  | allow, [] => allow && startsWith c [] && rightOkB c []
  | allow, b :: r =>
    (allow && startsWith c (b :: r) && rightOkB c (b :: r)) ||
    (!isIdChar b && startsWith c r && rightOkB c r) ||
    hasMatch c false r

/-- `re.sub(r'(^|[^A-Za-z0-9_])' + c + r'([^A-Za-z0-9_]|$)', r'\1' + n + r'\2', t)`,
with explicit fuel (one unit per character consumed; `t.length` is always
enough).  Matches are found left to right and are non-overlapping; each
match consumes the boundary characters captured by the two groups, and the
replacement re-emits them around `n`. -/
def substGoF (c n : List Char) : Nat → Bool → List Char → List Char
  | 0, _, t => t
  | f + 1, allow, t =>
    if allow && startsWith c t && rightOkB c t then
      match t.drop c.length with
      | [] => n
      | b :: r => n ++ b :: substGoF c n f false r
    else
      match t with
      | [] => []
      | b :: r =>
        if !isIdChar b && startsWith c r && rightOkB c r then
          match r.drop c.length with
          | [] => b :: n
          | b2 :: r2 => b :: (n ++ b2 :: substGoF c n f false r2)
        else b :: substGoF c n f false r

/-- The boundary-safe substitution applied to one body line. -/
def substCl (c n s : List Char) : List Char :=
  substGoF c n s.length true s

/-- The substitution the specification describes: every boundary-safe
occurrence is replaced.  Same scan as `substGoF`, except that consuming a
boundary character does not disable a match starting right after it: the
recursive flag is `!isIdChar b` (the consumed boundary character still
counts as a left boundary) instead of `false`. -/
def replaceSafeGoF (c n : List Char) : Nat → Bool → List Char → List Char
  | 0, _, t => t
  | f + 1, allow, t =>
    if allow && startsWith c t && rightOkB c t then
      match t.drop c.length with
      | [] => n
      | b :: r => n ++ b :: replaceSafeGoF c n f (!isIdChar b) r
    else
      match t with
      | [] => []
      | b :: r =>
        if !isIdChar b && startsWith c r && rightOkB c r then
          match r.drop c.length with
          | [] => b :: n
          | b2 :: r2 => b :: (n ++ b2 :: replaceSafeGoF c n f (!isIdChar b2) r2)
        else b :: replaceSafeGoF c n f false r

/-- Replace every boundary-safe occurrence of `c` in `s` by `n` (the
specification's reading of the body-line substitution). -/
def replaceSafe (c n s : List Char) : List Char :=
  replaceSafeGoF c n s.length true s

/-- Detector for the one situation where the two scans differ: a match
whose consumed right-boundary character immediately precedes another
boundary-safe occurrence.  `ja` records that the previous step consumed a
non-identifier boundary character right before the current position. -/
def hasAdjF (c : List Char) : Nat → Bool → Bool → List Char → Bool
  | 0, _, _, _ => false
  | f + 1, allow, ja, t =>
    if allow && startsWith c t && rightOkB c t then
      match t.drop c.length with
      | [] => false
      | b :: r => hasAdjF c f false (!isIdChar b) r
    else if ja && startsWith c t && rightOkB c t then true
    else
      match t with
      | [] => false
      | b :: r =>
        if !isIdChar b && startsWith c r && rightOkB c r then
          match r.drop c.length with
          | [] => false
          | b2 :: r2 => hasAdjF c f false (!isIdChar b2) r2
        else hasAdjF c f false false r

/-- `s` has two boundary-safe occurrences of `c` sharing a single
boundary character (the configuration on which the rewriter misses the
second one). -/
def hasAdj (c s : List Char) : Bool :=
  hasAdjF c s.length true false s

/-! ### Prefix replacement on static-import lines -/

/-- Does the regex built from prefix `p` match a prefix of `s`?  Every
character of `p` is literal except `.`, which matches any single character
other than a newline. -/
def patStarts : List Char → List Char → Bool
  | [], _ => true
  | _ :: _, [] => false
  | pc :: pr, x :: xr =>
    (if pc == '.' then x != '\n' else pc == x) && patStarts pr xr

/-- `re.sub(p, toS, s)` for a fixed-width pattern `p` (fuelled; matches are
left to right and non-overlapping).  With an empty pattern this embedding
returns `s` unchanged; the configured prefixes are nonempty. -/
def replaceAllPatF (p toS : List Char) : Nat → List Char → List Char
  | 0, s => s
  | _ + 1, [] => []
  | f + 1, x :: xs =>
    if !p.isEmpty && patStarts p (x :: xs) then
      toS ++ replaceAllPatF p toS f ((x :: xs).drop p.length)
    else x :: replaceAllPatF p toS f xs

def replaceAllPat (p toS s : List Char) : List Char :=
  replaceAllPatF p toS s.length s

/-- Literal (non-regex) replacement of every occurrence of `p` by `toS`,
left to right and non-overlapping: Python's `str.replace` (for a nonempty
`p`), and the "textual" replacement described by the specification. -/
def replaceAllLitF (p toS : List Char) : Nat → List Char → List Char
  | 0, s => s
  | _ + 1, [] => []
  | f + 1, x :: xs =>
    if !p.isEmpty && startsWith p (x :: xs) then
      toS ++ replaceAllLitF p toS f ((x :: xs).drop p.length)
    else x :: replaceAllLitF p toS f xs

def replaceAllLit (p toS s : List Char) : List Char :=
  replaceAllLitF p toS s.length s

/-! ### Configuration: the rule table and the prefixes -/

/-- One substitution rule.  `parseClassSubstitutionRules` populates the
dictionaries `args.classnames` (`cname -> subpkg`) and
`args.class_substitutions` (`cname -> subst`) in lockstep; both are keyed
by `cname`, so they are embedded as one record. -/
structure Rule where
  cname : List Char
  subpkg : List Char
  subst : List Char
deriving DecidableEq

/-- The configuration threaded through the engine as `args`:
`args.from_prefix`, `args.to_prefix` and the parsed rule table. -/
structure Config where
  fromPs : List (List Char)
  toP : List Char
  rules : List Rule
deriving DecidableEq

/-- `containsAnyFromPrefix(line, args)`. -/
def containsAnyFrom (cfg : Config) (line : List Char) : Bool :=
  cfg.fromPs.any (fun p => containsSub p line)

/-- `prefixLength(str, args)`: the length of the first configured "from"
prefix contained (anywhere) in `str`, `-1` if none is. -/
def prefixLength (ps : List (List Char)) (s : List Char) : Int :=
  match ps with
  | [] => -1
  | p :: rest => if containsSub p s then (p.length : Int) else prefixLength rest s

/-- The substitution target recorded for class name `c`
(`args.class_substitutions[classname]`). -/
def substLookup (cfg : Config) (c : List Char) : List Char :=
  match cfg.rules.find? (fun r => r.cname == c) with
  | some r => r.subst
  | none => []

/-! ### Pass 1: the usage scanner -/

/-- Per-file scanner state: `imported_subpackages` (a dict used as a set)
and `found_classes` (a dict `classname -> new_classname`), both kept in
insertion order. -/
structure SState where
  subpkgs : List (List Char)
  found : List (List Char × List Char)
deriving DecidableEq

/-- Boolean membership in a list of strings. -/
def memB (x : List Char) (ys : List (List Char)) : Bool :=
  ys.any (fun y => y == x)

/-- Record a subpackage (`imported_subpackages[subpackage] = True`). -/
def insertSp (x : List Char) (ys : List (List Char)) : List (List Char) :=
  if memB x ys then ys else ys ++ [x]

/-- The body of pass 1's inner loop over the rule table, for one rule on
one non-import line: if the rule's subpackage has been imported and the
line has a boundary-safe occurrence of the class name, record
`found_classes[classname] = new_classname` where `new_classname` is the
last segment of the substitution target. -/
def bodyStep (line : List Char) (s : SState) (r : Rule) : SState :=
  if memB r.subpkg s.subpkgs && containsSub r.cname line &&
      hasMatch r.cname true line then
    if s.found.any (fun cn => cn.1 == r.cname) then s
    else { s with found := s.found ++ [(r.cname, lastSeg r.subst)] }
  else s

/-- Pass 1, one line: an import line with a contained "from" prefix
records `import_string[prefix_len+1:import_string.rfind('.')]` into
`imported_subpackages`; a static import line is skipped; any other line is
scanned against the rule table. -/
def scanLine (cfg : Config) (st : SState) (line : List Char) : SState :=
  match matchImport line with
  | some g =>
    if 0 < prefixLength cfg.fromPs g then
      { st with
        subpkgs :=
          insertSp (pySlice g (prefixLength cfg.fromPs g + 1) (rfindDot g)) st.subpkgs }
    else st
  | none =>
    if (matchStatic line).isSome then st
    else cfg.rules.foldl (bodyStep line) st

/-- Pass 1 over the whole file. -/
def scan (cfg : Config) (lines : List (List Char)) : SState :=
  lines.foldl (scanLine cfg) ⟨[], []⟩

/-! ### Pass 2: the rewriter -/

/-- Lexicographic (code-point) order on strings, Python's `<=` used by
`list.sort`. -/
def lexLe : List Char → List Char → Bool
  | [], _ => true
  | _ :: _, [] => false
  | a :: as, b :: bs => decide (a < b) || (a == b && lexLe as bs)

/-- Insert into a lexicographically sorted list. -/
def insLex (x : List Char) : List (List Char) → List (List Char)
  | [] => [x]
  | y :: ys => if lexLe x y then x :: y :: ys else y :: insLex x ys

/-- Sorting by insertion; agrees with Python's `list.sort` on lists of
strings (both produce the sorted arrangement of the multiset, and the
order is antisymmetric). -/
def sortLex (l : List (List Char)) : List (List Char) :=
  l.foldr insLex []

/-- `addImports(found_classes, args)`: one line
`'import ' + class_substitutions[classname] + ';\n'` per found class,
sorted. -/
def addImports (cfg : Config) (found : List (List Char × List Char)) :
    List (List Char) :=
  sortLex (found.map (fun cn => strL "import " ++ substLookup cfg cn.1 ++ strL ";\n"))

/-- The class substitutions applied to one body line in pass 2: for each
found class (in order), if the line contains the name, apply the
boundary-safe substitution. -/
def substBody (found : List (List Char × List Char)) (line : List Char) :
    List Char :=
  found.foldl (fun l cn => if containsSub cn.1 l then substCl cn.1 cn.2 l else l) line

/-- The rewrite of a static-import line: for each "from" prefix (in
order), if the line contains it literally, `re.sub` it to the "to"
prefix. -/
def staticRewrite (cfg : Config) (line : List Char) : List Char :=
  cfg.fromPs.foldl
    (fun l p => if containsSub p l then replaceAllPat p cfg.toP l else l) line

/-- Pass 2.  `fi` is the `first_import` flag: the generated import block
is inserted at the first import-statement line.  Import lines containing a
"from" prefix or the "to" prefix are dropped; static-import lines
containing a "from" prefix but not the "to" prefix get the prefix rewrite;
all other lines get the class substitutions. -/
def pass2go (cfg : Config) (found : List (List Char × List Char)) :
    Bool → List (List Char) → List (List Char)
  | _, [] => []
  | fi, l :: rest =>
    if (matchImport l).isSome then
      (if fi then addImports cfg found else []) ++
      (if !containsAnyFrom cfg l && !containsSub cfg.toP l then [l] else []) ++
      pass2go cfg found false rest
    else if (matchStatic l).isSome then
      (if containsAnyFrom cfg l && !containsSub cfg.toP l then staticRewrite cfg l
       else l) :: pass2go cfg found fi rest
    else substBody found l :: pass2go cfg found fi rest

/-- `processLines(lines, args)`: pass 1, then, unless `found_classes`
ended empty, pass 2. -/
def processLines (cfg : Config) (lines : List (List Char)) : List (List Char) :=
  let st := scan cfg lines
  if st.found.isEmpty then lines else pass2go cfg st.found true lines

/-! ### Rule-table loading -/

/-- One rule from the first two tokens of a rule line: the class name is
the last dot-segment of the old name; the subpackage is
`oldname[len('${fromprefix}')+1:oldname.rfind('.')]` (the placeholder is
handled by its length, 13); `${toprefix}` is expanded in the new name. -/
def mkRule2 (toS t1 t2 : List Char) : Rule :=
  { cname := lastSeg t1
    subpkg := pySlice t1 14 (rfindDot t1)
    subst := replaceAllLit (strL "$\x7btoprefix\x7d") toS t2 }

/-- Total per-line rule builder (junk on lines with fewer than two
tokens, which make `parseRules` fail). -/
def mkRuleLine (toS line : List Char) : Rule :=
  match pySplit line with
  | t1 :: t2 :: _ => mkRule2 toS t1 t2
  | _ => ⟨[], [], []⟩

/-- `parseClassSubstitutionRules` of the hipparchus-migration script:
`tokens[0]`/`tokens[1]` raise an uncaught `IndexError` (embedded as
`none`) on a line with fewer than two tokens; extra tokens are ignored. -/
def parseRules (toS : List Char) : List (List Char) → Option (List Rule)
  | [] => some []
  | l :: ls =>
    match pySplit l with
    | t1 :: t2 :: _ => (parseRules toS ls).map (fun rs => mkRule2 toS t1 t2 :: rs)
    | _ => none

/-- The anchored rule-line pattern of the commons-math variant:
`^\s*([A-Za-z_][A-Za-z0-9_]*)\s*([A-Za-z0-9_]...)\s*$` with both groups
greedy.  `k` is the candidate length of group 1, tried from the maximal
identifier run downwards (regex greediness with backtracking); the gap and
group 2 are deterministic once group 1 is fixed. -/
def tryTwoIdents (t : List Char) : Nat → Option (List Char × List Char)
  | 0 => none
  | k + 1 =>
    let g1 := t.take (k + 1)
    let rest := t.drop (k + 1)
    let afterGap := rest.dropWhile isPySpace
    let g2 := afterGap.takeWhile isIdChar
    if (match g2 with
        | c2 :: _ => (match g1 with
            | c1 :: _ => isAlphaUnd c1 | [] => false) && isAlphaUnd c2 &&
            ((afterGap.drop g2.length).dropWhile isPySpace).isEmpty
        | [] => false) then
      some (g1, g2)
    else tryTwoIdents t k

/-- Does a rule line of the commons-math variant match its two-identifier
pattern?  If so, return the two groups. -/
def parseTwoIdents (line : List Char) : Option (List Char × List Char) :=
  let t := line.dropWhile isPySpace
  let r1 := t.takeWhile isIdChar
  tryTwoIdents t r1.length

/-- `parseClassSubstitutionRules` of the commons-math variant: lines not
matching the pattern are skipped. -/
def parseRulesACM : List (List Char) → List (List Char × List Char)
  | [] => []
  | l :: ls =>
    match parseTwoIdents l with
    | some cn => cn :: parseRulesACM ls
    | none => parseRulesACM ls

/-! ### Derived notions used by the theorems -/

/-- The first configured "from" prefix contained in `s` (the prefix whose
length `prefixLength` reports). -/
def firstContains (ps : List (List Char)) (s : List Char) : Option (List Char) :=
  match ps with
  | [] => none
  | p :: rest => if containsSub p s then some p else firstContains rest s

/-- A line matching the import-statement shape. -/
def isImp (l : List Char) : Bool := (matchImport l).isSome

/-- `sp` is a namespace root registered by some import line of `ms`:
there is a line whose import pattern matches with group `g`, a "from"
prefix is contained in `g`, and the recorded slice of `g` is `sp`. -/
def GoodSp (cfg : Config) (ms : List (List Char)) (sp : List Char) : Prop :=
  ∃ l ∈ ms, ∃ g, matchImport l = some g ∧ 0 < prefixLength cfg.fromPs g ∧
    pySlice g (prefixLength cfg.fromPs g + 1) (rfindDot g) = sp

/-- A `found_classes` entry is justified: it comes from a rule of the
table whose subpackage was registered by an import line of `ms`. -/
def GoodCn (cfg : Config) (ms : List (List Char)) (cn : List Char × List Char) :
    Prop :=
  ∃ r ∈ cfg.rules, r.cname = cn.1 ∧ cn.2 = lastSeg r.subst ∧
    GoodSp cfg ms r.subpkg

/-- Pointwise spec order used to state sortedness of the import block. -/
def LexR (a b : List Char) : Prop := lexLe a b = true

/-- `l` is not an import line that registers a namespace root: either it
does not match the import pattern, or no configured "from" prefix is
contained in its identifier. -/
def noRegLine (cfg : Config) (l : List Char) : Bool :=
  match matchImport l with
  | some g => !(decide (0 < prefixLength cfg.fromPs g))
  | none => true

/-! ### Concrete inputs used by the counterexamples and witnesses -/

/-- C1 counterexample: a rule table whose substitution targets lie back
inside the "from" namespace, so rewriting flips between two states. -/
def exCfg1 : Config :=
  ⟨[strL "old"], strL "new",
   [⟨strL "Foo", strL "p", strL "old.p.Bar"⟩,
    ⟨strL "Bar", strL "p", strL "old.p.Foo"⟩]⟩

def exLines1 : List (List Char) := [strL "import old.p.Foo;\n", strL "Foo x;\n"]

/-- C1 witness: a realistic configuration (substitution targets under the
"to" prefix). -/
def exCfg1b : Config :=
  ⟨[strL "org.apache.commons.math3"], strL "org.hipparchus",
   [⟨strL "FastMath", strL "util", strL "org.hipparchus.util.FastMath"⟩]⟩

def exLines1b : List (List Char) :=
  [strL "import org.apache.commons.math3.util.FastMath;\n",
   strL "double y = FastMath.abs(x);\n"]

/-- C2: a body line with two boundary-safe occurrences separated by one
non-identifier character. -/
def exCfg2 : Config :=
  ⟨[strL "a.c"], strL "z.h", [⟨strL "Foo", strL "p", strL "z.h.p.Bar"⟩]⟩

def exLines2 : List (List Char) := [strL "import a.c.p.Foo;\n", strL "Foo,Foo\n"]

/-- C3 witness input. -/
def exCfg3 : Config :=
  ⟨[strL "a.c"], strL "zz", [⟨strL "Foo", strL "p", strL "x.NewFoo"⟩]⟩

def exLines3 : List (List Char) := [strL "import a.c.p.Foo;\n", strL "Foo b;\n"]

/-- C4: one "from"-prefix import whose classes are used in the body, one
unrelated import, one import under the "to" prefix, two applicable rules
listed in anti-lexicographic order. -/
def exCfg4 : Config :=
  ⟨[strL "org.apache.commons.math3", strL "org.apache.commons.math4"],
   strL "org.hipparchus",
   [⟨strL "MathArrays", strL "util", strL "org.hipparchus.util.MathArrays"⟩,
    ⟨strL "FastMath", strL "util", strL "org.hipparchus.util.FastMath"⟩]⟩

def exLines4 : List (List Char) :=
  [strL "import org.apache.commons.math3.util.FastMath;\n",
   strL "import java.util.List;\n",
   strL "import org.hipparchus.old.Thing;\n",
   strL "x = MathArrays.ebeAdd(FastMath.abs(y), z);\n"]

/-- C5 witness "to" prefix. -/
def exToP5 : List Char := strL "org.hipparchus"

/-- C6: a static import whose identifier contains a dotted "from" prefix
both literally and via the `.`-wildcard. -/
def exCfg6 : Config :=
  ⟨[strL "a.c"], strL "zz", [⟨strL "Foo", strL "p", strL "q.r.Foo"⟩]⟩

def exLines6 : List (List Char) :=
  [strL "import a.c.p.Foo;\n", strL "Foo x;\n", strL "import static a.c.abc.D;\n"]

/-- C7 witness: a file with no old-namespace imports and no matching
identifiers. -/
def exCfg7 : Config :=
  ⟨[strL "org.apache.commons.math3"], strL "org.hipparchus",
   [⟨strL "FastMath", strL "util", strL "org.hipparchus.util.FastMath"⟩]⟩

def exLines7 : List (List Char) :=
  [strL "import java.util.List;\n", strL "int x = 0;\n"]

/-- C8 witness input. -/
def exCfg8 : Config :=
  ⟨[strL "a.c"], strL "zz", [⟨strL "Foo", strL "p", strL "x.NewFoo"⟩]⟩

def exLines8 : List (List Char) :=
  [strL "class A \x7b\n", strL "import a.c.p.Foo;\n", strL "Foo b;\n"]

/-- C9 witness: the body line using `Foo` precedes the import line that
gates it, and pass 1 never matches it. -/
def exCfg9 : Config :=
  ⟨[strL "a.c"], strL "zz", [⟨strL "Foo", strL "p", strL "x.NewFoo"⟩]⟩

def exLines9 : List (List Char) :=
  [strL "Foo a;\n", strL "import a.c.p.Foo;\n", strL "Foo b;\n"]

/-- C10 witness: the prefix `b.c` occurs in the middle of the imported
identifier, not at its start. -/
def exCfg10 : Config := ⟨[strL "b.c"], strL "zz", []⟩

def exLine10 : List Char := strL "import a.b.c.D;\n"

set_option maxRecDepth 10000

/-! ### Helper lemmas: scanning without registered subpackages -/

theorem memB_iff {x : List Char} {ys : List (List Char)} :
    memB x ys = true ↔ x ∈ ys := by
  simp [memB, List.any_eq_true, beq_iff_eq]

theorem bodyStep_subpkgs (line : List Char) (s : SState) (r : Rule) :
    (bodyStep line s r).subpkgs = s.subpkgs := by
  unfold bodyStep
  split
  · split
    · rfl
    · rfl
  · rfl

theorem rulesFold_subpkgs (line : List Char) :
    ∀ (rs : List Rule) (s : SState),
      (rs.foldl (bodyStep line) s).subpkgs = s.subpkgs := by
  intro rs
  induction rs with
  | nil => intro s; rfl
  | cons r rs ih =>
    intro s
    simpa [List.foldl_cons, bodyStep_subpkgs] using ih (bodyStep line s r)

theorem bodyStep_of_no_subpkgs (line : List Char) (s : SState) (r : Rule)
    (h : s.subpkgs = []) : bodyStep line s r = s := by
  unfold bodyStep
  have hm : memB r.subpkg s.subpkgs = false := by
    simp [h, memB]
  simp [hm]

theorem rulesFold_of_no_subpkgs (line : List Char) :
    ∀ (rs : List Rule) (s : SState), s.subpkgs = [] →
      rs.foldl (bodyStep line) s = s := by
  intro rs
  induction rs with
  | nil => intro s _; rfl
  | cons r rs ih =>
    intro s h
    simp [List.foldl_cons, bodyStep_of_no_subpkgs line s r h, ih s h]

theorem scanLine_of_no_reg (cfg : Config) (st : SState) (l : List Char)
    (h0 : st.subpkgs = [])
    (h : ∀ g, matchImport l = some g → ¬ 0 < prefixLength cfg.fromPs g) :
    scanLine cfg st l = st := by
  unfold scanLine
  cases hm : matchImport l with
  | some g => simp [h g hm]
  | none =>
    cases hs : (matchStatic l).isSome <;>
      simp [hs, rulesFold_of_no_subpkgs l cfg.rules st h0]

theorem scanFold_of_no_reg (cfg : Config) :
    ∀ (ls : List (List Char)) (st : SState), st.subpkgs = [] →
      (∀ l ∈ ls, ∀ g, matchImport l = some g → ¬ 0 < prefixLength cfg.fromPs g) →
      ls.foldl (scanLine cfg) st = st := by
  intro ls
  induction ls with
  | nil => intro st _ _; rfl
  | cons l ls ih =>
    intro st h0 h
    have h1 : scanLine cfg st l = st :=
      scanLine_of_no_reg cfg st l h0 (h l (List.mem_cons_self l ls))
    simp [List.foldl_cons, h1, ih st h0 fun x hx => h x (List.mem_cons_of_mem l hx)]

/-- If no line of the file is an import statement whose identifier
contains a configured "from" prefix, pass 1 registers nothing and finds
nothing, and the file is returned untouched. -/
theorem processLines_of_no_reg (cfg : Config) (lines : List (List Char))
    (h : ∀ l ∈ lines, ∀ g, matchImport l = some g →
      ¬ 0 < prefixLength cfg.fromPs g) :
    scan cfg lines = ⟨[], []⟩ ∧ processLines cfg lines = lines := by
  have hs : scan cfg lines = ⟨[], []⟩ :=
    scanFold_of_no_reg cfg lines ⟨[], []⟩ rfl h
  refine ⟨hs, ?_⟩
  unfold processLines
  simp [hs]

/-! ### Helper lemmas: the gating invariant of pass 1 -/

theorem goodSp_mono {cfg : Config} {ms ms2 : List (List Char)} {sp : List Char}
    (h : GoodSp cfg ms sp) : GoodSp cfg (ms ++ ms2) sp := by
  obtain ⟨l, hl, g, hg⟩ := h
  exact ⟨l, List.mem_append_left ms2 hl, g, hg⟩

theorem goodCn_mono {cfg : Config} {ms ms2 : List (List Char)}
    {cn : List Char × List Char} (h : GoodCn cfg ms cn) :
    GoodCn cfg (ms ++ ms2) cn := by
  obtain ⟨r, hr, h1, h2, h3⟩ := h
  exact ⟨r, hr, h1, h2, goodSp_mono h3⟩

theorem bodyStep_found_inv {cfg : Config} {ms : List (List Char)}
    {line : List Char} {s : SState} {r : Rule}
    (hr : r ∈ cfg.rules)
    (hsp : ∀ sp ∈ s.subpkgs, GoodSp cfg ms sp)
    (hfd : ∀ cn ∈ s.found, GoodCn cfg ms cn) :
    ∀ cn ∈ (bodyStep line s r).found, GoodCn cfg ms cn := by
  unfold bodyStep
  split
  · next hcond =>
    split
    · exact hfd
    · intro cn hcn
      simp only [List.mem_append, List.mem_singleton] at hcn
      rcases hcn with h | h
      · exact hfd cn h
      · subst h
        have hmem : memB r.subpkg s.subpkgs = true := by
          have := hcond
          simp only [Bool.and_eq_true] at this
          exact this.1.1
        exact ⟨r, hr, rfl, rfl, hsp r.subpkg (memB_iff.mp hmem)⟩
  · exact hfd

theorem rulesFold_found_inv {cfg : Config} {ms : List (List Char)}
    {line : List Char} :
    ∀ (rs : List Rule) (s : SState), (∀ r ∈ rs, r ∈ cfg.rules) →
      (∀ sp ∈ s.subpkgs, GoodSp cfg ms sp) →
      (∀ cn ∈ s.found, GoodCn cfg ms cn) →
      ∀ cn ∈ (rs.foldl (bodyStep line) s).found, GoodCn cfg ms cn := by
  intro rs
  induction rs with
  | nil => intro s _ _ hfd; exact hfd
  | cons r rs ih =>
    intro s hrs hsp hfd
    simp only [List.foldl_cons]
    refine ih (bodyStep line s r) (fun x hx => hrs x (List.mem_cons_of_mem r hx))
      ?_ ?_
    · rw [bodyStep_subpkgs]; exact hsp
    · exact bodyStep_found_inv (hrs r (List.mem_cons_self r rs)) hsp hfd

theorem scanLine_inv {cfg : Config} {ms : List (List Char)} {st : SState}
    (l : List Char)
    (hsp : ∀ sp ∈ st.subpkgs, GoodSp cfg ms sp)
    (hfd : ∀ cn ∈ st.found, GoodCn cfg ms cn) :
    (∀ sp ∈ (scanLine cfg st l).subpkgs, GoodSp cfg (ms ++ [l]) sp) ∧
    (∀ cn ∈ (scanLine cfg st l).found, GoodCn cfg (ms ++ [l]) cn) := by
  unfold scanLine
  cases hm : matchImport l with
  | some g =>
    by_cases hp : 0 < prefixLength cfg.fromPs g
    · simp only [hp, if_pos]
      constructor
      · intro sp hspm
        unfold insertSp at hspm
        split at hspm
        · exact goodSp_mono (hsp sp hspm)
        · simp only [List.mem_append, List.mem_singleton] at hspm
          rcases hspm with h | h
          · exact goodSp_mono (hsp sp h)
          · exact ⟨l, List.mem_append_right ms (List.mem_singleton.mpr rfl),
              g, hm, hp, h.symm⟩
      · intro cn hcn
        exact goodCn_mono (hfd cn hcn)
    · simp only [hp, if_neg, not_false_eq_true]
      exact ⟨fun sp h => goodSp_mono (hsp sp h), fun cn h => goodCn_mono (hfd cn h)⟩
  | none =>
    cases hs : (matchStatic l).isSome
    · simp only [hs, Bool.false_eq_true, if_neg, not_false_eq_true]
      constructor
      · rw [rulesFold_subpkgs]
        exact fun sp h => goodSp_mono (hsp sp h)
      · exact rulesFold_found_inv cfg.rules st (fun r hr => hr)
          (fun sp h => goodSp_mono (hsp sp h))
          (fun cn h => goodCn_mono (hfd cn h))
    · simp only [hs, if_pos]
      exact ⟨fun sp h => goodSp_mono (hsp sp h), fun cn h => goodCn_mono (hfd cn h)⟩

theorem scanFold_inv (cfg : Config) :
    ∀ (ls : List (List Char)) (st : SState) (ms : List (List Char)),
      (∀ sp ∈ st.subpkgs, GoodSp cfg ms sp) →
      (∀ cn ∈ st.found, GoodCn cfg ms cn) →
      (∀ sp ∈ (ls.foldl (scanLine cfg) st).subpkgs, GoodSp cfg (ms ++ ls) sp) ∧
      (∀ cn ∈ (ls.foldl (scanLine cfg) st).found, GoodCn cfg (ms ++ ls) cn) := by
  intro ls
  induction ls with
  | nil =>
    intro st ms hsp hfd
    simp only [List.foldl_nil, List.append_nil]
    exact ⟨hsp, hfd⟩
  | cons l ls ih =>
    intro st ms hsp hfd
    have step := scanLine_inv l hsp hfd
    have h2 := ih (scanLine cfg st l) (ms ++ [l]) step.1 step.2
    simpa [List.append_assoc] using h2

/-- Every entry of `found_classes` after pass 1 is justified by a rule
whose subpackage some import line of the file registered. -/
theorem scan_found_good (cfg : Config) (lines : List (List Char)) :
    ∀ cn ∈ (scan cfg lines).found, GoodCn cfg lines cn := by
  have h := scanFold_inv cfg lines ⟨[], []⟩ []
    (by intro sp h; simp at h) (by intro cn h; simp at h)
  simpa using h.2

/-! ### Helper lemmas: pass 2 decomposition -/

theorem pass2go_append (cfg : Config) (found : List (List Char × List Char)) :
    ∀ (xs : List (List Char)) (fi : Bool) (ys : List (List Char)),
      pass2go cfg found fi (xs ++ ys) =
        pass2go cfg found fi xs ++
          pass2go cfg found (fi && !(xs.any isImp)) ys := by
  intro xs
  induction xs with
  | nil => intro fi ys; simp [pass2go]
  | cons l xs ih =>
    intro fi ys
    cases him : (matchImport l).isSome
    · cases hst : (matchStatic l).isSome
      · simp [pass2go, him, hst, ih fi ys, isImp]
      · simp [pass2go, him, hst, ih fi ys, isImp]
    · simp [pass2go, him, ih false ys, isImp]

theorem exists_first_split {α : Type} (p : α → Bool) :
    ∀ (l : List α), (∃ x ∈ l, p x = true) →
      ∃ pre a post, l = pre ++ a :: post ∧ p a = true ∧ ∀ y ∈ pre, p y = false := by
  intro l
  induction l with
  | nil => intro h; simp at h
  | cons a l ih =>
    intro h
    cases hp : p a with
    | true => exact ⟨[], a, l, rfl, hp, by intro y hy; simp at hy⟩
    | false =>
      have h2 : ∃ x ∈ l, p x = true := by
        obtain ⟨x, hx, hpx⟩ := h
        rcases List.mem_cons.mp hx with h3 | h3
        · subst h3; rw [hp] at hpx; exact absurd hpx (by simp)
        · exact ⟨x, h3, hpx⟩
      obtain ⟨pre, b, post, heq, hb, hpre⟩ := ih h2
      refine ⟨a :: pre, b, post, by simp [heq], hb, ?_⟩
      intro y hy
      rcases List.mem_cons.mp hy with h3 | h3
      · subst h3; exact hp
      · exact hpre y h3

/-! ### Helper lemmas: the boundary-safe substitution -/

/-- If there is no boundary-safe occurrence, `re.sub` leaves the line
unchanged (for any fuel). -/
theorem substGoF_id (c n : List Char) :
    ∀ (f : Nat) (allow : Bool) (t : List Char),
      hasMatch c allow t = false → substGoF c n f allow t = t := by
  intro f
  induction f with
  | zero => intro allow t _; rfl
  | succ f ih =>
    intro allow t h
    cases t with
    | nil =>
      have h1 : (allow && startsWith c [] && rightOkB c []) = false := by
        simpa [hasMatch] using h
      simp [substGoF, h1]
    | cons b r =>
      simp only [hasMatch, Bool.or_eq_false_iff] at h
      obtain ⟨⟨h1, h2⟩, h3⟩ := h
      rw [substGoF]
      simp only [h1, h2, Bool.false_eq_true, if_false]
      rw [ih false r h3]

/-- No boundary-safe occurrence: the pass-2 class substitution leaves the
line unchanged. -/
theorem substCl_id (c n t : List Char) (h : hasMatch c true t = false) :
    substCl c n t = t :=
  substGoF_id c n t.length true t h

/-- The rewriter's consuming scan agrees with the specification's
replace-every-boundary-safe-occurrence scan whenever no match's consumed
boundary character immediately precedes another boundary-safe
occurrence. -/
theorem substGoF_eq_safe (c n : List Char) :
    ∀ (f : Nat) (t : List Char) (allow ja : Bool),
      hasAdjF c f allow ja t = false →
      substGoF c n f allow t = replaceSafeGoF c n f (allow || ja) t := by
  intro f
  induction f with
  | zero => intro t allow ja _; rfl
  | succ f ih =>
    intro t allow ja h
    cases t with
    | nil =>
      simp only [hasAdjF, List.drop_nil] at h
      simp only [substGoF, replaceSafeGoF, List.drop_nil]
      rcases Bool.eq_false_or_eq_true (allow && startsWith c [] && rightOkB c []) with hM | hM
      · have hM2 : ((allow || ja) && startsWith c [] && rightOkB c []) = true := by
          simp only [Bool.and_eq_true] at hM
          simp [hM.1.1, hM.1.2, hM.2]
        rw [if_pos hM, if_pos hM2]
      · rw [if_neg (by simp [hM])] at h
        rw [if_neg (by simp [hM])]
        rcases Bool.eq_false_or_eq_true (ja && startsWith c [] && rightOkB c []) with hJ | hJ
        · rw [if_pos hJ] at h
          exact absurd h (by simp)
        · have hM3 : ¬ (((allow || ja) && startsWith c [] && rightOkB c []) = true) := by
            intro hx
            simp only [Bool.and_eq_true, Bool.or_eq_true] at hx
            rcases hx.1.1 with ha | hj
            · rw [ha] at hM
              simp [hx.1.2, hx.2] at hM
            · rw [hj] at hJ
              simp [hx.1.2, hx.2] at hJ
          rw [if_neg hM3]
    | cons b r =>
      simp only [hasAdjF] at h
      simp only [substGoF, replaceSafeGoF]
      rcases Bool.eq_false_or_eq_true
          (allow && startsWith c (b :: r) && rightOkB c (b :: r)) with hM | hM
      · have hM2 : ((allow || ja) && startsWith c (b :: r) && rightOkB c (b :: r)) = true := by
          simp only [Bool.and_eq_true] at hM
          simp [hM.1.1, hM.1.2, hM.2]
        rw [if_pos hM] at h
        rw [if_pos hM, if_pos hM2]
        cases hdrop : List.drop c.length (b :: r) with
        | nil => rfl
        | cons b2 r2 =>
          rw [hdrop] at h
          have h2 := ih r2 false (!isIdChar b2) h
          rw [Bool.false_or] at h2
          show n ++ b2 :: substGoF c n f false r2 =
            n ++ b2 :: replaceSafeGoF c n f (!isIdChar b2) r2
          rw [h2]
      · rw [if_neg (by simp [hM])] at h
        rw [if_neg (by simp [hM])]
        rcases Bool.eq_false_or_eq_true
            (ja && startsWith c (b :: r) && rightOkB c (b :: r)) with hJ | hJ
        · rw [if_pos hJ] at h
          exact absurd h (by simp)
        · rw [if_neg (by simp [hJ])] at h
          have hM3 : ¬ (((allow || ja) && startsWith c (b :: r) &&
              rightOkB c (b :: r)) = true) := by
            intro hx
            simp only [Bool.and_eq_true, Bool.or_eq_true] at hx
            rcases hx.1.1 with ha | hj
            · rw [ha] at hM
              simp [hx.1.2, hx.2] at hM
            · rw [hj] at hJ
              simp [hx.1.2, hx.2] at hJ
          rw [if_neg hM3]
          rcases Bool.eq_false_or_eq_true
              (!isIdChar b && startsWith c r && rightOkB c r) with hB | hB
          · rw [if_pos hB] at h
            rw [if_pos hB, if_pos hB]
            cases hdrop : List.drop c.length r with
            | nil => rfl
            | cons b2 r2 =>
              rw [hdrop] at h
              have h2 := ih r2 false (!isIdChar b2) h
              rw [Bool.false_or] at h2
              show b :: (n ++ b2 :: substGoF c n f false r2) =
                b :: (n ++ b2 :: replaceSafeGoF c n f (!isIdChar b2) r2)
              rw [h2]
          · rw [if_neg (by simp [hB])] at h
            rw [if_neg (by simp [hB]), if_neg (by simp [hB])]
            have h2 := ih r false false h
            rw [Bool.false_or] at h2
            rw [h2]

/-- Wrapper at the `substCl` level. -/
theorem substCl_eq_safe (c n s : List Char) (h : hasAdj c s = false) :
    substCl c n s = replaceSafe c n s :=
  substGoF_eq_safe c n s.length s true false h

/-! ### Helper lemmas: prefix replacement without wildcard dots -/

theorem patStarts_eq_startsWith (p : List Char) (hp : ∀ ch ∈ p, ch ≠ '.') :
    ∀ t, patStarts p t = startsWith p t := by
  induction p with
  | nil => intro t; cases t <;> rfl
  | cons pc pr ih =>
    intro t
    cases t with
    | nil => rfl
    | cons x xr =>
      have hd : (pc == '.') = false := by
        simp [hp pc (List.mem_cons_self pc pr)]
      have ht : ∀ ch ∈ pr, ch ≠ '.' := fun ch hch =>
        hp ch (List.mem_cons_of_mem pc hch)
      simp [patStarts, startsWith, hd, ih ht]

/-- A "from" prefix without dots is replaced purely textually: the regex
substitution and the literal replacement coincide. -/
theorem replaceAllPat_eq_lit (p toS : List Char) (hp : ∀ ch ∈ p, ch ≠ '.') :
    ∀ (f : Nat) (s : List Char),
      replaceAllPatF p toS f s = replaceAllLitF p toS f s := by
  intro f
  induction f with
  | zero => intro s; rfl
  | succ f ih =>
    intro s
    cases s with
    | nil => rfl
    | cons x xs =>
      simp only [replaceAllPatF, replaceAllLitF, patStarts_eq_startsWith p hp]
      split
      · rw [ih]
      · rw [ih]

/-! ### Helper lemmas: sortedness of the generated import block -/

theorem lexLe_total : ∀ a b : List Char, lexLe a b = true ∨ lexLe b a = true := by
  intro a
  induction a with
  | nil => intro b; left; rfl
  | cons x as ih =>
    intro b
    cases b with
    | nil => right; rfl
    | cons y bs =>
      rcases lt_trichotomy x y with h | h | h
      · left; simp [lexLe, h]
      · subst h
        rcases ih bs with h2 | h2
        · left; simp [lexLe, h2]
        · right; simp [lexLe, h2]
      · right; simp [lexLe, h]

theorem lexLe_trans : ∀ a b c : List Char,
    lexLe a b = true → lexLe b c = true → lexLe a c = true := by
  intro a
  induction a with
  | nil => intro b c _ _; rfl
  | cons x as ih =>
    intro b c hab hbc
    cases b with
    | nil => simp [lexLe] at hab
    | cons y bs =>
      cases c with
      | nil => simp [lexLe] at hbc
      | cons z cs =>
        simp only [lexLe, Bool.or_eq_true, Bool.and_eq_true, decide_eq_true_eq,
          beq_iff_eq] at hab hbc ⊢
        rcases hab with h1 | ⟨h1, h1r⟩
        · rcases hbc with h2 | ⟨h2, _⟩
          · exact Or.inl (lt_trans h1 h2)
          · subst h2; exact Or.inl h1
        · subst h1
          rcases hbc with h2 | ⟨h2, h2r⟩
          · exact Or.inl h2
          · subst h2; exact Or.inr ⟨rfl, ih bs cs h1r h2r⟩

theorem mem_insLex {z x : List Char} :
    ∀ {l : List (List Char)}, z ∈ insLex x l → z = x ∨ z ∈ l := by
  intro l
  induction l with
  | nil => intro h; simpa [insLex] using h
  | cons y ys ih =>
    intro h
    unfold insLex at h
    split at h
    · rcases List.mem_cons.mp h with h2 | h2
      · exact Or.inl h2
      · exact Or.inr h2
    · rcases List.mem_cons.mp h with h2 | h2
      · exact Or.inr (by simp [h2])
      · rcases ih h2 with h3 | h3
        · exact Or.inl h3
        · exact Or.inr (List.mem_cons_of_mem y h3)

theorem insLex_pairwise (x : List Char) :
    ∀ (l : List (List Char)), l.Pairwise LexR → (insLex x l).Pairwise LexR := by
  intro l
  induction l with
  | nil => intro _; simp [insLex, List.pairwise_singleton]
  | cons y ys ih =>
    intro hp
    rcases List.pairwise_cons.mp hp with ⟨hy, hys⟩
    unfold insLex
    split
    · next hxy =>
      refine List.pairwise_cons.mpr ⟨?_, hp⟩
      intro z hz
      rcases List.mem_cons.mp hz with h2 | h2
      · subst h2; exact hxy
      · exact lexLe_trans x y z hxy (hy z h2)
    · next hxy =>
      refine List.pairwise_cons.mpr ⟨?_, ih hys⟩
      intro z hz
      rcases mem_insLex hz with h2 | h2
      · subst h2
        rcases lexLe_total y z with h3 | h3
        · exact h3
        · exact absurd h3 (by simpa using hxy)
      · exact hy z h2

/-- The generated import block is sorted. -/
theorem sortLex_pairwise : ∀ l : List (List Char), (sortLex l).Pairwise LexR := by
  intro l
  induction l with
  | nil => simp [sortLex]
  | cons x xs ih => exact insLex_pairwise x (sortLex xs) ih

/-! ### Helper lemma: `prefixLength` and the first contained prefix -/

theorem prefixLength_of_first {ps : List (List Char)} {s p : List Char}
    (h : firstContains ps s = some p) :
    prefixLength ps s = (p.length : Int) := by
  induction ps with
  | nil => simp [firstContains] at h
  | cons q ps ih =>
    unfold firstContains at h
    cases hq : containsSub q s with
    | true =>
      rw [hq, if_pos rfl] at h
      cases h
      simp [prefixLength, hq]
    | false =>
      rw [hq] at h
      simp only [Bool.false_eq_true, if_false] at h
      simp only [prefixLength, hq, Bool.false_eq_true, if_false]
      exact ih h

theorem noRegLine_spec (cfg : Config) (l : List Char)
    (h : noRegLine cfg l = true) :
    ∀ g, matchImport l = some g → ¬ 0 < prefixLength cfg.fromPs g := by
  intro g hg
  unfold noRegLine at h
  rw [hg] at h
  simpa using h

/-! ## The claims -/

/-- C1 (counterexample): with the rule table
`Foo -> old.p.Bar`, `Bar -> old.p.Foo` (substitution targets back inside
the "from" namespace `old`), running `processLines` on
`import old.p.Foo; / Foo x;` and then running it again on the output does
NOT end pass 1 with an empty `foundClasses`, and does NOT return its input
unchanged: the two runs flip the file between two states. -/
theorem claim1_counterexample :
    ¬((scan exCfg1 (processLines exCfg1 exLines1)).found = [] ∧
      processLines exCfg1 (processLines exCfg1 exLines1) =
        processLines exCfg1 exLines1) := by decide

/-- C1 (amended): if the first run's output contains no import-statement
line whose identifier contains a configured "from" prefix (the
specification's proviso "no remaining from-prefix imports", which a rule
table whose substitution targets avoid the "from" prefixes guarantees),
then the second run ends pass 1 with an empty `foundClasses` mapping and
returns its input unchanged. -/
theorem claim1_amended (cfg : Config) (lines : List (List Char))
    (h : (processLines cfg lines).all (noRegLine cfg) = true) :
    (scan cfg (processLines cfg lines)).found = [] ∧
    processLines cfg (processLines cfg lines) = processLines cfg lines := by
  have h2 : ∀ l ∈ processLines cfg lines, ∀ g, matchImport l = some g →
      ¬ 0 < prefixLength cfg.fromPs g := by
    intro l hl
    exact noRegLine_spec cfg l ((List.all_eq_true.mp h) l hl)
  obtain ⟨hs, hp⟩ := processLines_of_no_reg cfg (processLines cfg lines) h2
  exact ⟨by rw [hs], hp⟩

/-- C1 (witness): on a realistic configuration (target under the "to"
prefix) the hypothesis holds and the second run is the identity. -/
theorem claim1_witness :
    (processLines exCfg1b exLines1b).all (noRegLine exCfg1b) = true ∧
    ((scan exCfg1b (processLines exCfg1b exLines1b)).found = [] ∧
     processLines exCfg1b (processLines exCfg1b exLines1b) =
       processLines exCfg1b exLines1b) :=
  ⟨by decide, claim1_amended exCfg1b exLines1b (by decide)⟩

/-- C2 (counterexample): with rule `Foo -> z.h.p.Bar` (new simple name
`Bar`), the body line `Foo,Foo` holds two boundary-safe occurrences of
`Foo` (the first flanked by the line start and `,`, the second by `,` and
the line end), yet the rewriter replaces only the first: the output body
line is `Bar,Foo`, not the `Bar,Bar` the claim requires, and it still
holds a boundary-safe occurrence of `Foo`. -/
theorem claim2_counterexample :
    processLines exCfg2 exLines2 =
      [strL "import z.h.p.Bar;\n", strL "Bar,Foo\n"] ∧
    processLines exCfg2 exLines2 ≠
      [strL "import z.h.p.Bar;\n", strL "Bar,Bar\n"] ∧
    hasMatch (strL "Foo") true (strL "Foo,Foo\n") = true ∧
    hasMatch (strL "Foo") true (strL "Bar,Foo\n") = true := by decide

/-- C2 (amended): the rewriter replaces the boundary-safe occurrences of
the old simple name found by a left-to-right scan in which every match
consumes its boundary characters.  Whenever no two boundary-safe
occurrences share a single boundary character (`hasAdj` is false), this
equals the specification's replace-every-boundary-safe-occurrence
substitution `replaceSafe`; when two occurrences do share one (as in
`Foo,Foo`, where `replaceSafe` yields `Bar,Bar`), only the first is
replaced.  A line with no boundary-safe occurrence — e.g. one where the
name appears only inside longer identifiers — is left unmodified, and
isolated boundary-safe occurrences are all replaced, case-sensitively. -/
theorem claim2_amended :
    (∀ c n s, hasAdj c s = false → substCl c n s = replaceSafe c n s) ∧
    (∀ c n s, hasMatch c true s = false → substBody [(c, n)] s = s) ∧
    replaceSafe (strL "Foo") (strL "Bar") (strL "Foo,Foo\n") =
      strL "Bar,Bar\n" ∧
    hasAdj (strL "Foo") (strL "Foo,Foo\n") = true ∧
    substBody [(strL "OriginalClass", strL "ReplacementClass")]
        (strL "x = MyOwnOriginalClass + OriginalClassExtended;\n") =
      strL "x = MyOwnOriginalClass + OriginalClassExtended;\n" ∧
    substBody [(strL "OriginalClass", strL "ReplacementClass")]
        (strL "y = (OriginalClass) z;\n") =
      strL "y = (ReplacementClass) z;\n" ∧
    substBody [(strL "Foo", strL "Bar")] (strL "a Foo b Foo.c;\n") =
      strL "a Bar b Bar.c;\n" := by
  refine ⟨substCl_eq_safe, ?_, by decide, by decide, by decide, by decide, by decide⟩
  intro c n s h
  simp only [substBody, List.foldl_cons, List.foldl_nil]
  split
  · exact substCl_id c n s h
  · rfl

/-- C2 (witness): a line where the name occurs only inside a longer
identifier is unchanged. -/
theorem claim2_witness :
    (hasAdj (strL "Foo") (strL "a Foo b Foo.c;\n") = false ∧
     substCl (strL "Foo") (strL "Bar") (strL "a Foo b Foo.c;\n") =
       replaceSafe (strL "Foo") (strL "Bar") (strL "a Foo b Foo.c;\n")) ∧
    (hasMatch (strL "Original") true (strL "xOriginaly;\n") = false ∧
     substBody [(strL "Original", strL "Repl")] (strL "xOriginaly;\n") =
       strL "xOriginaly;\n") :=
  ⟨⟨by decide,
    claim2_amended.1 (strL "Foo") (strL "Bar") (strL "a Foo b Foo.c;\n") (by decide)⟩,
   by decide,
   claim2_amended.2.1 (strL "Original") (strL "Repl") (strL "xOriginaly;\n")
     (by decide)⟩

/-- C3: a `found_classes` entry `(c, n)` only ever arises from a rule of
the table with class name `c`, whose new simple name is the last segment
of the substitution target, and whose subpackage equals the namespace root
`import_string[prefix_len+1:rfind('.')]` extracted from a line of the
same file that matches the import-statement shape and whose identifier
contains a configured "from" prefix; hence a body line is never rewritten
for `c` without such an import line being present. -/
theorem claim3_gating (cfg : Config) (lines : List (List Char))
    (c n : List Char) (h : (c, n) ∈ (scan cfg lines).found) :
    ∃ r ∈ cfg.rules, r.cname = c ∧ n = lastSeg r.subst ∧
      ∃ l ∈ lines, ∃ g, matchImport l = some g ∧
        0 < prefixLength cfg.fromPs g ∧
        pySlice g (prefixLength cfg.fromPs g + 1) (rfindDot g) = r.subpkg := by
  have hg := scan_found_good cfg lines (c, n) h
  obtain ⟨r, hr, h1, h2, h3⟩ := hg
  obtain ⟨l, hl, g, hgg⟩ := h3
  exact ⟨r, hr, h1, h2, l, hl, g, hgg⟩

/-- C3 (witness). -/
theorem claim3_witness :
    (strL "Foo", strL "NewFoo") ∈ (scan exCfg3 exLines3).found ∧
    (∃ r ∈ exCfg3.rules, r.cname = strL "Foo" ∧ strL "NewFoo" = lastSeg r.subst ∧
      ∃ l ∈ exLines3, ∃ g, matchImport l = some g ∧
        0 < prefixLength exCfg3.fromPs g ∧
        pySlice g (prefixLength exCfg3.fromPs g + 1) (rfindDot g) = r.subpkg) :=
  ⟨by decide, claim3_gating exCfg3 exLines3 (strL "Foo") (strL "NewFoo") (by decide)⟩

/-- C4: on a file with a "from"-prefix import whose classes are used, an
unrelated import and a "to"-prefix import, the rewriter drops the
"from"-prefix and "to"-prefix imports, keeps the unrelated one, and
inserts at the position of the first import line exactly one import per
found class, each literally `import <substitution target>;`, in
lexicographic order (the rule table lists the two classes in the opposite
order).  In general every generated import block is lexicographically
sorted. -/
theorem claim4_import_block :
    processLines exCfg4 exLines4 =
      [strL "import org.hipparchus.util.FastMath;\n",
       strL "import org.hipparchus.util.MathArrays;\n",
       strL "import java.util.List;\n",
       strL "x = MathArrays.ebeAdd(FastMath.abs(y), z);\n"] ∧
    addImports exCfg4 (scan exCfg4 exLines4).found =
      [strL "import org.hipparchus.util.FastMath;\n",
       strL "import org.hipparchus.util.MathArrays;\n"] ∧
    (∀ cfg found, (addImports cfg found).Pairwise LexR) :=
  ⟨by decide, by decide, fun _ _ => sortLex_pairwise _⟩

/-- C5 (counterexample): the rule line `a b c` has three
whitespace-separated tokens, yet rule loading neither fails nor skips it:
it yields exactly one entry built from the first two tokens. -/
theorem claim5_counterexample :
    parseRules exToP5 [strL "a b c"] = some [⟨strL "a", [], strL "b"⟩] ∧
    parseRules exToP5 [strL "a b c"] ≠ none := by decide

/-- C5 (amended): rule loading of the hipparchus-migration script fails
(an uncaught `IndexError`, embedded as `none`) exactly when some line has
fewer than two whitespace-separated tokens; when every line has at least
two tokens, each line yields exactly one entry built from its first two
tokens (extra tokens are ignored), with `${toprefix}` expanded in the
second token.  The commons-math variant instead skips every line that is
not exactly two bare identifiers — in particular it skips dotted rule
lines. -/
theorem claim5_amended :
    (∀ toS lines, parseRules toS lines = none ↔
      ∃ l ∈ lines, (pySplit l).length < 2) ∧
    (∀ toS lines, (∀ l ∈ lines, 2 ≤ (pySplit l).length) →
      parseRules toS lines = some (lines.map (mkRuleLine toS))) ∧
    parseRulesACM [strL "a.b.C x.y.D", strL "Foo Bar"] =
      [(strL "Foo", strL "Bar")] := by
  refine ⟨?_, ?_, by decide⟩
  · intro toS lines
    induction lines with
    | nil => simp [parseRules]
    | cons l ls ih =>
      cases hsp : pySplit l with
      | nil =>
        simp only [parseRules, hsp]
        constructor
        · intro _; exact ⟨l, List.mem_cons_self l ls, by simp [hsp]⟩
        · intro _; trivial
      | cons t1 ts =>
        cases ts with
        | nil =>
          simp only [parseRules, hsp]
          constructor
          · intro _; exact ⟨l, List.mem_cons_self l ls, by simp [hsp]⟩
          · intro _; trivial
        | cons t2 ts2 =>
          simp only [parseRules, hsp]
          constructor
          · intro h
            have h2 : parseRules toS ls = none := by
              cases hpr : parseRules toS ls with
              | none => rfl
              | some rs => rw [hpr] at h; simp at h
            obtain ⟨x, hx, hlen⟩ := ih.mp h2
            exact ⟨x, List.mem_cons_of_mem l hx, hlen⟩
          · intro h
            obtain ⟨x, hx, hlen⟩ := h
            rcases List.mem_cons.mp hx with h3 | h3
            · subst h3
              rw [hsp] at hlen
              simp only [List.length_cons] at hlen
              omega
            · rw [ih.mpr ⟨x, h3, hlen⟩]; rfl
  · intro toS lines
    induction lines with
    | nil => intro _; rfl
    | cons l ls ih =>
      intro h
      have hl := h l (List.mem_cons_self l ls)
      cases hsp : pySplit l with
      | nil => rw [hsp] at hl; simp at hl
      | cons t1 ts =>
        cases ts with
        | nil => rw [hsp] at hl; simp at hl
        | cons t2 ts2 =>
          have ih2 := ih (fun x hx => h x (List.mem_cons_of_mem l hx))
          simp [parseRules, hsp, ih2, mkRuleLine]

/-- C5 (witness): a two-token line yields exactly its one rule. -/
theorem claim5_witness :
    (∀ l ∈ [strL "a.b.C x.y.D"], 2 ≤ (pySplit l).length) ∧
    parseRules exToP5 [strL "a.b.C x.y.D"] =
      some ([strL "a.b.C x.y.D"].map (mkRuleLine exToP5)) :=
  ⟨by decide, claim5_amended.2.1 exToP5 [strL "a.b.C x.y.D"] (by decide)⟩

/-- C6 (counterexample): the "from" prefix is spliced unescaped into
`re.sub`, so its dots match any character: with prefix `a.c` the static
line `import static a.c.abc.D;` becomes `import static zz.zz.D;` (the
run of `abc` also matched `a.c`), while the textual replacement the claim
requires yields `import static zz.abc.D;`. -/
theorem claim6_counterexample :
    processLines exCfg6 exLines6 =
      [strL "import q.r.Foo;\n", strL "Foo x;\n",
       strL "import static zz.zz.D;\n"] ∧
    replaceAllLit (strL "a.c") (strL "zz") (strL "import static a.c.abc.D;\n") =
      strL "import static zz.abc.D;\n" ∧
    processLines exCfg6 exLines6 ≠
      [strL "import q.r.Foo;\n", strL "Foo x;\n",
       strL "import static zz.abc.D;\n"] := by decide

/-- C6 (amended): on a static-import line containing some "from" prefix
and not the "to" prefix, every occurrence of every "from" prefix ---
read as a Python regex, so that a `.` in the prefix matches any single
character except a newline --- is replaced by the "to" prefix; for a
prefix containing no dot this is exactly the textual replacement.  A
static-import line failing the condition is kept unchanged. -/
theorem claim6_amended :
    (∀ p toS s, (∀ ch ∈ p, ch ≠ '.') →
      replaceAllPat p toS s = replaceAllLit p toS s) ∧
    staticRewrite exCfg6 (strL "import static a.c.abc.D;\n") =
      strL "import static zz.zz.D;\n" ∧
    (∀ cfg found fi l rest, matchImport l = none →
      (matchStatic l).isSome = true →
      (containsAnyFrom cfg l && !containsSub cfg.toP l) = false →
      pass2go cfg found fi (l :: rest) = l :: pass2go cfg found fi rest) := by
  refine ⟨?_, by decide, ?_⟩
  · intro p toS s hp
    unfold replaceAllPat replaceAllLit
    exact replaceAllPat_eq_lit p toS hp s.length s
  · intro cfg found fi l rest h1 h2 h3
    simp [pass2go, h1, h2, h3]

/-- C6 (witness): dot-free prefixes are replaced textually, and a static
line already containing the "to" prefix is kept unchanged. -/
theorem claim6_witness :
    ((∀ ch ∈ strL "ab", ch ≠ '.') ∧
     replaceAllPat (strL "ab") (strL "zz") (strL "xaby abz;\n") =
       replaceAllLit (strL "ab") (strL "zz") (strL "xaby abz;\n")) ∧
    (matchImport (strL "import static zz.q.D;\n") = none ∧
     (matchStatic (strL "import static zz.q.D;\n")).isSome = true ∧
     (containsAnyFrom exCfg6 (strL "import static zz.q.D;\n") &&
       !containsSub exCfg6.toP (strL "import static zz.q.D;\n")) = false ∧
     pass2go exCfg6 [(strL "Foo", strL "Foo")] true
         [strL "import static zz.q.D;\n"] =
       strL "import static zz.q.D;\n" ::
         pass2go exCfg6 [(strL "Foo", strL "Foo")] true []) :=
  ⟨⟨by decide,
    claim6_amended.1 (strL "ab") (strL "zz") (strL "xaby abz;\n") (by decide)⟩,
   by decide, by decide, by decide,
   claim6_amended.2.2 exCfg6 [(strL "Foo", strL "Foo")] true
     (strL "import static zz.q.D;\n") [] (by decide) (by decide) (by decide)⟩

/-- C7: if pass 1 ends with an empty `foundClasses` mapping, the engine
short-circuits and returns its input unchanged (no pass 2 runs).  In
particular a file with no import line registering a namespace root — so
no old-namespace imports, hence no gated identifier matches — ends pass 1
empty and is returned byte-for-byte. -/
theorem claim7_noop (cfg : Config) (lines : List (List Char)) :
    ((scan cfg lines).found = [] → processLines cfg lines = lines) ∧
    (lines.all (noRegLine cfg) = true →
      (scan cfg lines).found = [] ∧ processLines cfg lines = lines) := by
  constructor
  · intro h
    unfold processLines
    simp [h]
  · intro h
    have h2 : ∀ l ∈ lines, ∀ g, matchImport l = some g →
        ¬ 0 < prefixLength cfg.fromPs g := by
      intro l hl
      exact noRegLine_spec cfg l ((List.all_eq_true.mp h) l hl)
    obtain ⟨hs, hp⟩ := processLines_of_no_reg cfg lines h2
    exact ⟨by rw [hs], hp⟩

/-- C7 (witness). -/
theorem claim7_witness :
    (scan exCfg7 exLines7).found = [] ∧
    processLines exCfg7 exLines7 = exLines7 ∧
    exLines7.all (noRegLine exCfg7) = true :=
  ⟨by decide, (claim7_noop exCfg7 exLines7).1 (by decide), by decide⟩

/-- C8: if pass 1 ends with a non-empty `foundClasses`, the file has at
least one import-statement line; splitting at the first one, pass 2 emits
the transformed earlier lines, then the generated import block exactly
once, then that import line if it survives the drop rule, then the rest
processed with the `first_import` flag spent — so the insertion point
exists, is unique, and sits at the first import line. -/
theorem claim8_insertion (cfg : Config) (lines : List (List Char))
    (h : (scan cfg lines).found ≠ []) :
    ∃ pre imp post, lines = pre ++ imp :: post ∧
      (∀ l ∈ pre, (matchImport l).isSome = false) ∧
      (matchImport imp).isSome = true ∧
      processLines cfg lines =
        pass2go cfg (scan cfg lines).found true pre ++
        addImports cfg (scan cfg lines).found ++
        (if !containsAnyFrom cfg imp && !containsSub cfg.toP imp then [imp]
         else []) ++
        pass2go cfg (scan cfg lines).found false post := by
  obtain ⟨cn, hcn⟩ : ∃ cn, cn ∈ (scan cfg lines).found := by
    cases hf : (scan cfg lines).found with
    | nil => exact absurd hf h
    | cons a l => exact ⟨a, List.mem_cons_self a l⟩
  obtain ⟨r, _, _, _, l0, hl0, g0, hm0, _⟩ := scan_found_good cfg lines cn hcn
  have himp : ∃ x ∈ lines, isImp x = true := ⟨l0, hl0, by simp [isImp, hm0]⟩
  obtain ⟨pre, imp, post, heq, himp2, hpre⟩ := exists_first_split isImp lines himp
  have hs : (matchImport imp).isSome = true := by simpa [isImp] using himp2
  have hpa : pre.any isImp = false := by
    cases hh : pre.any isImp with
    | false => rfl
    | true =>
      obtain ⟨x, hx, hpx⟩ := List.any_eq_true.mp hh
      rw [hpre x hx] at hpx
      exact absurd hpx (by simp)
  have hfe : (scan cfg lines).found.isEmpty = false := by
    cases hf : (scan cfg lines).found with
    | nil => exact absurd hf h
    | cons a l => rfl
  refine ⟨pre, imp, post, heq, fun l hl => by simpa [isImp] using hpre l hl, hs, ?_⟩
  subst heq
  unfold processLines
  simp only [hfe, Bool.false_eq_true, if_false]
  rw [pass2go_append]
  rw [hpa]
  simp only [Bool.not_false, Bool.and_true]
  rw [pass2go]
  simp only [hs, if_pos, if_true, List.append_assoc]

/-- C8 (witness). -/
theorem claim8_witness :
    (scan exCfg8 exLines8).found ≠ [] ∧
    (∃ pre imp post, exLines8 = pre ++ imp :: post ∧
      (∀ l ∈ pre, (matchImport l).isSome = false) ∧
      (matchImport imp).isSome = true ∧
      processLines exCfg8 exLines8 =
        pass2go exCfg8 (scan exCfg8 exLines8).found true pre ++
        addImports exCfg8 (scan exCfg8 exLines8).found ++
        (if !containsAnyFrom exCfg8 imp && !containsSub exCfg8.toP imp then [imp]
         else []) ++
        pass2go exCfg8 (scan exCfg8 exLines8).found false post) :=
  ⟨by decide, claim8_insertion exCfg8 exLines8 (by decide)⟩

/-- C9: once pass 1 has recorded any entry, pass 2 applies the class
substitutions to every body line of the file, wherever it sits: for any
decomposition of the file around a body line `l` (matching neither import
pattern), the output is the processed prefix, then `substBody found l`,
then the processed suffix — in particular body lines before the gating
line of import, and lines pass 1 never matched, are rewritten too. -/
theorem claim9_body_rewrite (cfg : Config) (lines pre post : List (List Char))
    (l c n : List Char)
    (hsplit : lines = pre ++ l :: post)
    (him : matchImport l = none) (hst : matchStatic l = none)
    (hfound : (c, n) ∈ (scan cfg lines).found) :
    processLines cfg lines =
      pass2go cfg (scan cfg lines).found true pre ++
      substBody (scan cfg lines).found l ::
      pass2go cfg (scan cfg lines).found (true && !(pre.any isImp)) post := by
  have hfe : (scan cfg lines).found.isEmpty = false := by
    cases hf : (scan cfg lines).found with
    | nil => rw [hf] at hfound; simp at hfound
    | cons a lf => rfl
  subst hsplit
  unfold processLines
  simp only [hfe, Bool.false_eq_true, if_false]
  rw [pass2go_append]
  rw [pass2go]
  simp [him, hst]

/-- C9 (witness): in `Foo a; / import a.c.p.Foo; / Foo b;` the body line
before the import — which pass 1 never matched — is rewritten as well. -/
theorem claim9_witness :
    (strL "Foo", strL "NewFoo") ∈ (scan exCfg9 exLines9).found ∧
    processLines exCfg9 exLines9 =
      pass2go exCfg9 (scan exCfg9 exLines9).found true [] ++
      substBody (scan exCfg9 exLines9).found (strL "Foo a;\n") ::
      pass2go exCfg9 (scan exCfg9 exLines9).found (true && !(List.any [] isImp))
        [strL "import a.c.p.Foo;\n", strL "Foo b;\n"] ∧
    processLines exCfg9 exLines9 =
      [strL "NewFoo a;\n", strL "import x.NewFoo;\n", strL "NewFoo b;\n"] :=
  ⟨by decide,
   claim9_body_rewrite exCfg9 exLines9 []
     [strL "import a.c.p.Foo;\n", strL "Foo b;\n"]
     (strL "Foo a;\n") (strL "Foo") (strL "NewFoo") rfl (by decide) (by decide)
     (by decide),
   by decide⟩

/-- C10: the usage scanner registers an import line whenever some
configured "from" prefix occurs anywhere as a substring of the imported
identifier (not only as a leading prefix); the recorded root is the slice
of the identifier from `len(p)+1` to the last dot, where `p` is the first
prefix found, i.e. computed as if that prefix started at position 0; and
`found_classes` is untouched by an import line. -/
theorem claim10_prefix_containment (cfg : Config) (st : SState)
    (line g p : List Char)
    (hm : matchImport line = some g)
    (hf : firstContains cfg.fromPs g = some p)
    (hp : p ≠ []) :
    (scanLine cfg st line).subpkgs =
      insertSp (pySlice g ((p.length : Int) + 1) (rfindDot g)) st.subpkgs ∧
    (scanLine cfg st line).found = st.found := by
  have hpl : prefixLength cfg.fromPs g = (p.length : Int) :=
    prefixLength_of_first hf
  have hpn : 0 < p.length := List.length_pos.mpr hp
  have hpos : 0 < prefixLength cfg.fromPs g := by
    rw [hpl]
    exact_mod_cast hpn
  simp [scanLine, hm, hpos, hpl, hpn]

/-- C10 (witness): the prefix `b.c` occurs inside `a.b.c.D` but not at
its start; the recorded root is computed as if it did. -/
theorem claim10_witness :
    matchImport exLine10 = some (strL "a.b.c.D") ∧
    firstContains exCfg10.fromPs (strL "a.b.c.D") = some (strL "b.c") ∧
    strL "b.c" ≠ [] ∧
    ((scanLine exCfg10 ⟨[], []⟩ exLine10).subpkgs =
      insertSp
        (pySlice (strL "a.b.c.D") (((strL "b.c").length : Int) + 1)
          (rfindDot (strL "a.b.c.D"))) [] ∧
     (scanLine exCfg10 ⟨[], []⟩ exLine10).found = []) :=
  ⟨by decide, by decide, by decide,
   claim10_prefix_containment exCfg10 ⟨[], []⟩ exLine10 (strL "a.b.c.D")
     (strL "b.c") (by decide) (by decide) (by decide)⟩
